import Mathlib

/-!
# Verification of `src/crypto/public_key/rsa.js`

A shallow embedding of the RSA primitive layer (OpenPGP.js, GPG4Browsers
lineage).  jsbn `BigInteger` values are modelled as `Int` (jsbn integers are
signed, immutable, arbitrary precision); `mod` is jsbn's nonnegative
remainder for a positive modulus, which is `Int.emod` (`%`).  The external
arbitrary-precision operations (`modPow`, `modInverse`, `bitLength`) are
modelled from the spec's BigInt contract, since the bignum library is an
external collaborator of this core.  Process-wide mutable blinding state is
threaded explicitly; the secure-random draw made inside `blind` is passed in
as an oracle argument `fresh`.
-/

namespace Rsa

/-- Number of binary digits of `n`, with `fuel` bounding the recursion. -/
def bitLenAux : Nat → Nat → Nat
  | 0, _ => 0
  | fuel + 1, n => if n = 0 then 0 else bitLenAux fuel (n / 2) + 1

/-- Modelled from the spec: jsbn `bitLength` — number of bits of a
nonnegative arbitrary-precision integer, `0` for zero. -/
def bitLength (x : Int) : Nat :=
  bitLenAux (x.toNat + 1) x.toNat

/-- Modelled from the spec: jsbn `modPow` — modular exponentiation
`b ^ e mod n` with nonnegative exponent, result in `[0, n)` for `n > 0`. -/
def modPow (b e n : Int) : Int :=
  (b ^ e.toNat) % n

/-- Modelled from the spec: jsbn `modPowInt` — same computation as `modPow`
via the small-integer-exponent fast path. -/
def modPowInt (b e n : Int) : Int :=
  (b ^ e.toNat) % n

/-- Modelled from the spec: jsbn `modInverse` — the modular inverse of `a`
mod `m`, in `[0, m)` (`ZERO` when no inverse exists). -/
def modInverse (a m : Int) : Int :=
  (((List.range m.toNat).find? fun x => a.toNat * x % m.toNat == 1).getD 0 : Nat)

/-- The process-wide mutable blinding state (`var blinder`, `var unblinder`
at module scope in `rsa.js`), threaded explicitly. -/
structure BlindState where
  blinder : Int
  unblinder : Int
deriving DecidableEq, Repr

/-- Initial module state: both factors start at `BigInteger.ZERO`. -/
def initState : BlindState := ⟨0, 0⟩

/-- The unblinder value in effect after `blind`'s refresh step: squared and
reduced when its bit length matches the modulus, otherwise the fresh draw
`fresh` from `random.getRandomBigIntegerInRange(TWO, n)`. -/
def effUnblinder (st : BlindState) (fresh n : Int) : Int :=
  if bitLength st.unblinder = bitLength n then st.unblinder ^ 2 % n else fresh

/-- `blind(m, n, e)` from `rsa.js`: refreshes the unblinder, recomputes
`blinder = unblinder.modInverse(n).modPow(e, n)`, and returns
`m.multiply(blinder).mod(n)` together with the updated module state. -/
def blind (st : BlindState) (fresh m n e : Int) : BlindState × Int :=
  let ub := effUnblinder st fresh n
  let bl := modPow (modInverse ub n) e n
  (⟨bl, ub⟩, m * bl % n)

/-- `unblind(t, n)` from `rsa.js`: `t.multiply(unblinder).mod(n)`. -/
def unblind (st : BlindState) (t n : Int) : Int :=
  t * st.unblinder % n

/-- Modelled from the spec: the `t[0] === 0` test in `decrypt` inspects the
low limb of the jsbn internal representation; per the spec it decides
"whether a subtraction went negative" (the bignum internals are external to
this core). -/
def borrowNegative (t : Int) : Bool :=
  t < 0

/-- The CRT combination step of `decrypt` (lines 85–92 of `rsa.js`): branch
on the sign signal of `xq - xp`, multiply by the CRT coefficient `u` and
reduce mod `q`, with the extra `q.subtract(t)` fix-up on the negative
branch. -/
def crtCombine (xp xq u q : Int) : Int :=
  let t := xq - xp
  if borrowNegative t then
    q - (xp - xq) * u % q
  else
    t * u % q

/-- `decrypt(m, n, e, d, p, q, u)` from `rsa.js`: optional blinding, two
half-size exponentiations
`xp = (m mod p)^(d mod (p-1)) mod p`, `xq = (m mod q)^(d mod (q-1)) mod q`,
CRT combination, Garner reconstruction `t*p + xp`, optional unblinding.
`rsaBlinding` is the `config.rsa_blinding` flag, `st` the module blinding
state, `fresh` the oracle for the random draw inside `blind`. -/
def decrypt (rsaBlinding : Bool) (st : BlindState) (fresh m n e d p q u : Int) :
    BlindState × Int :=
  let s1 := if rsaBlinding then blind st fresh m n e else (st, m)
  let m1 := s1.2
  let xp := modPow (m1 % p) (d % (p - 1)) p
  let xq := modPow (m1 % q) (d % (q - 1)) q
  let t := crtCombine xp xq u q
  let t2 := t * p + xp
  let t3 := if rsaBlinding then unblind s1.1 t2 n else t2
  (s1.1, t3)

/-- `encrypt(m, e, n)` from `rsa.js`: `m.modPowInt(e, n)`. -/
def encrypt (m e n : Int) : Int :=
  modPowInt m e n

/-- `sign(m, d, n)` from `rsa.js`: `m.modPow(d, n)`. -/
def sign (m d n : Int) : Int :=
  modPow m d n

/-- `verify(x, e, n)` from `rsa.js`: `x.modPowInt(e, n)`. -/
def verify (x e n : Int) : Int :=
  modPowInt x e n

/-- The `keyObject` record of `rsa.js`: modulus, exponents and CRT
parameters of one keypair. -/
structure KeyObj where
  n : Int
  e : Int
  ee : Int
  d : Int
  p : Int
  q : Int
  dmp1 : Int
  dmq1 : Int
  u : Int
deriving DecidableEq, Repr

/-- One iteration of the outer loop of the in-process generation path of
`generate` (lines 197–224 of `rsa.js`), applied to the two accepted prime
candidates `pc` and `qc` produced by the inner rejection-sampling loops
(`ev` is the numeric value of the public-exponent argument `E`; the inner
loops guarantee `gcd(pc-1, ee) = 1`, `gcd(qc-1, ee) = 1` and primality).
Swap to enforce the ordering, re-check `gcd(φ, ee) = 1`, and on success
finalize `n`, `d`, `dmp1`, `dmq1`, `u`; `none` means the outer loop
restarts with fresh candidates. -/
def generateStep (ev pc qc : Int) : Option KeyObj :=
  let p := if pc ≤ qc then qc else pc
  let q := if pc ≤ qc then pc else qc
  let p1 := p - 1
  let q1 := q - 1
  let phi := p1 * q1
  if Int.gcd phi ev = 1 then
    let d := modInverse ev phi
    some { n := p * q, e := ev, ee := ev, d := d, p := p, q := q,
           dmp1 := d % p1, dmq1 := d % q1, u := modInverse p q }
  else
    none

/-- The Web Crypto key-generation request built by the native path of
`generate` (lines 143–150 of `rsa.js`). `publicExponent` is the byte array
passed to `window.crypto.subtle.generateKey`, big-endian. -/
structure KeyGenOpt where
  name : String
  modulusLength : Int
  publicExponent : List Nat
  hashName : String
deriving DecidableEq, Repr

/-- The request the native path constructs from the bit length `B` and the
caller-supplied exponent string `E`: the public exponent is the constant
byte array `[0x01, 0x00, 0x01]` (the source carries a TODO to use `E`). -/
def nativeKeyGenOpt (B : Int) (E : String) : KeyGenOpt :=
  { name := "RSASSA-PKCS1-v1_5"
    modulusLength := B
    publicExponent := [0x01, 0x00, 0x01]
    hashName := "SHA-256" }

/-- Value of a big-endian byte list. -/
def beBytesToNat (l : List Nat) : Nat :=
  l.foldl (fun a b => a * 256 + b) 0

/-- Values flowing through the native generation promise chain: the
generated key pair, the exported JSON Web Key, or JavaScript `undefined`
(the return value of a handler with no `return`). -/
inductive JsVal
  | keyPair
  | jwkVal
  | undef
deriving DecidableEq, Repr

/-- A settled JavaScript promise: fulfilled with a value, or rejected. -/
inductive PResult
  | resolved (v : JsVal)
  | rejected
deriving DecidableEq, Repr

/-- A caller-visible invocation of the completion callback of `generate`:
`callback(null, key)` or `callback(new Error(...))`. -/
inductive CbEvent
  | completedWithKey
  | completedWithError
deriving DecidableEq, Repr

/-- JavaScript `then` on a settled promise: the fulfillment handler runs on
a value and the rejection handler on a rejection; each handler yields the
callback invocations it performs and the settled state of the derived
promise (a throw rejects it, a returned promise is flattened into it). -/
def thenP (p : PResult) (onF : JsVal → List CbEvent × PResult)
    (onR : Unit → List CbEvent × PResult) : List CbEvent × PResult :=
  match p with
  | .resolved v => onF v
  | .rejected => onR ()

/-- The `onError` handler of `generate`: invokes
`callback(new Error('Generating key failed!'))` and returns `undefined`,
fulfilling the derived promise. -/
def onErrorH : List CbEvent × PResult :=
  ([CbEvent.completedWithError], .resolved .undef)

/-- The `onGenerated` handler: returns the `exportKey` promise; no callback
invocation of its own. -/
def onGeneratedH (exportResult : PResult) (_key : JsVal) : List CbEvent × PResult :=
  ([], exportResult)

/-- The `onExported` handler: reading `jwk.n` throws a `TypeError` when the
incoming value is `undefined` (before reaching the callback); otherwise it
builds the key object and invokes `callback(null, key)`. -/
def onExportedH (v : JsVal) : List CbEvent × PResult :=
  match v with
  | .undef => ([], .rejected)
  | _ => ([CbEvent.completedWithKey], .resolved .undef)

/-- The native branch of `generate` (lines 154–158 of `rsa.js`):
`generateKey(...).then(onGenerated, onError).then(onExported, onError)`,
with `genOk` and `exportOk` the platform outcomes of native key creation
and of the JWK export. Returns the callback invocations, in order. -/
def nativeGenerateEvents (genOk exportOk : Bool) : List CbEvent :=
  let p1 := if genOk then PResult.resolved .keyPair else .rejected
  let r1 := thenP p1
    (onGeneratedH (if exportOk then .resolved .jwkVal else .rejected))
    (fun _ => onErrorH)
  let r2 := thenP r1.2 onExportedH (fun _ => onErrorH)
  r1.1 ++ r2.1

/-! ## Number-theoretic helper lemmas -/

/-- An integer reduced mod `c` casts to `ZMod c` like the integer itself. -/
lemma intCast_emod_self (a : ℤ) (c : ℕ) :
    (((a % (c : ℤ)) : ℤ) : ZMod c) = (a : ZMod c) := by
  rw [ZMod.intCast_eq_intCast_iff]
  exact Int.emod_emod_of_dvd a dvd_rfl

/-- Range and correctness of the modelled `modInverse` on coprime inputs. -/
lemma modInverse_spec (a : ℤ) (c : ℕ) (ha : 0 ≤ a) (hc : 1 < c)
    (hco : Int.gcd a c = 1) :
    0 ≤ modInverse a c ∧ modInverse a c < c ∧ a * modInverse a c % c = 1 := by
  have hc0 : 0 < c := lt_trans one_pos hc
  have habs : a.natAbs = a.toNat := by omega
  have hcop : Nat.Coprime a.toNat c := by
    have : Int.gcd a c = Nat.gcd a.natAbs c := by
      simp [Int.gcd]
    rw [this, habs] at hco
    exact hco
  obtain ⟨m0, hm0⟩ := Nat.exists_mul_emod_eq_one_of_coprime hcop hc
  have hx0 : a.toNat * (m0 % c) % c = 1 := by
    conv_lhs => rw [Nat.mul_mod, Nat.mod_mod_of_dvd _ dvd_rfl, ← Nat.mul_mod]
    exact hm0
  have hmem : m0 % c ∈ List.range c := List.mem_range.mpr (Nat.mod_lt _ hc0)
  rcases hfind : (List.range c).find? fun x => a.toNat * x % c == 1 with _ | y
  · exact absurd (beq_iff_eq.mpr hx0) (by simpa using List.find?_eq_none.mp hfind _ hmem)
  · have hy : a.toNat * y % c = 1 := by
      have := List.find?_some hfind
      simpa using this
    have hylt : y < c := List.mem_range.mp (List.mem_of_find?_eq_some hfind)
    have hval : modInverse a c = (y : ℤ) := by
      simp [modInverse, hfind]
    refine ⟨by rw [hval]; exact Int.natCast_nonneg y,
            by rw [hval]; exact_mod_cast hylt, ?_⟩
    rw [hval]
    have hcast : ((a.toNat * y % c : ℕ) : ℤ) = 1 := by exact_mod_cast hy
    push_cast at hcast
    rwa [Int.toNat_of_nonneg ha] at hcast

/-- `modInverse` in `ZMod c`: it is a genuine inverse of `a`. -/
lemma modInverse_zmod (a : ℤ) (c : ℕ) (ha : 0 ≤ a) (hc : 1 < c)
    (hco : Int.gcd a c = 1) :
    ((modInverse a c : ℤ) : ZMod c) * (a : ZMod c) = 1 := by
  obtain ⟨-, -, hmul⟩ := modInverse_spec a c ha hc hco
  have h1 : (a * modInverse a c) % (c : ℤ) = 1 % (c : ℤ) := by
    rw [hmul, Int.emod_eq_of_lt (by norm_num) (by exact_mod_cast hc)]
  have := (ZMod.intCast_eq_intCast_iff' (a * modInverse a c) 1 c).mpr h1
  push_cast at this
  rw [mul_comm]
  exact this

/-- `modInverse` and the original element multiply to `1` mod `c`, stated
with the inverse on the left. -/
lemma modInverse_mul_emod (a : ℤ) (c : ℕ) (ha : 0 ≤ a) (hc : 1 < c)
    (hco : Int.gcd a c = 1) :
    modInverse a c * a % c = 1 := by
  obtain ⟨-, -, hmul⟩ := modInverse_spec a c ha hc hco
  rwa [mul_comm]

/-- Powers in `ZMod p` with exponent `≡ 1 (mod p - 1)` fix every element
(Fermat's little theorem, including `0`). -/
lemma zmod_pow_prime_cycle (p : ℕ) (hp : p.Prime) (c : ℕ) (y : ZMod p) :
    y ^ ((p - 1) * c + 1) = y := by
  haveI : Fact p.Prime := ⟨hp⟩
  by_cases hy : y = 0
  · subst hy
    rw [pow_succ, mul_zero]
  · rw [pow_succ, pow_mul, ZMod.pow_card_sub_one_eq_one hy, one_pow, one_mul]

/-- The RSA exponent identity in `ZMod (p*q)`: an exponent `≡ 1` mod
`(p-1)(q-1)` fixes every residue, coprime to the modulus or not. -/
lemma zmod_pow_rsa (p q : ℕ) (hp : p.Prime) (hq : q.Prime) (hne : p ≠ q)
    (N : ℕ) (hN : N % ((p - 1) * (q - 1)) = 1) (x : ZMod (p * q)) :
    x ^ N = x := by
  have hco := (Nat.coprime_primes hp hq).mpr hne
  have hdecomp : (p - 1) * (q - 1) * (N / ((p - 1) * (q - 1))) + 1 = N := by
    conv_rhs => rw [← Nat.div_add_mod N ((p - 1) * (q - 1))]
    rw [hN]
  apply (ZMod.chineseRemainder hco).injective
  rw [map_pow]
  have h1 : ((ZMod.chineseRemainder hco) x).1 ^ N = ((ZMod.chineseRemainder hco) x).1 := by
    conv_lhs => rw [← hdecomp]
    rw [mul_assoc]
    exact zmod_pow_prime_cycle p hp _ _
  have h2 : ((ZMod.chineseRemainder hco) x).2 ^ N = ((ZMod.chineseRemainder hco) x).2 := by
    conv_lhs => rw [← hdecomp]
    rw [mul_comm (p-1) (q-1), mul_assoc]
    exact zmod_pow_prime_cycle q hq _ _
  exact Prod.ext (by rw [Prod.pow_fst]; exact h1) (by rw [Prod.pow_snd]; exact h2)

/-- Euler's theorem for a unit of `ZMod (p*q)` at exponent `(p-1)(q-1)`. -/
lemma zmod_unit_pow_phi (p q : ℕ) (hp : p.Prime) (hq : q.Prime) (hne : p ≠ q)
    (x : ZMod (p * q)) (hx : IsUnit x) : x ^ ((p - 1) * (q - 1)) = 1 := by
  have hco := (Nat.coprime_primes hp hq).mpr hne
  have htot : Nat.totient (p * q) = (p - 1) * (q - 1) := by
    rw [Nat.totient_mul hco, Nat.totient_prime hp, Nat.totient_prime hq]
  obtain ⟨u, rfl⟩ := hx
  rw [← htot, ← Units.val_pow_eq_pow_val, ZMod.pow_totient, Units.val_one]

/-- Exchanging the two prime candidates before the ordering swap does not
change the outcome of the finalization step. -/
lemma generateStep_swap (ev pc qc : Int) (h : pc < qc) :
    generateStep ev pc qc = generateStep ev qc pc := by
  simp [generateStep, le_of_lt h, not_le.mpr h]

/-- Invariants of `generateStep` when the candidates arrive already in
strictly decreasing order (so the swap is a no-op). -/
lemma generateStep_invariants_sorted (ev : ℤ) (P Q : ℕ) (k : KeyObj)
    (hP : P.Prime) (hQ : Q.Prime) (hQP : Q < P) (hev : 0 ≤ ev)
    (hgP : Int.gcd ((P : ℤ) - 1) ev = 1) (hgQ : Int.gcd ((Q : ℤ) - 1) ev = 1)
    (hk : generateStep ev P Q = some k) :
    k.p.toNat.Prime ∧ k.q.toNat.Prime ∧ k.q < k.p ∧
    Int.gcd (k.p - 1) k.ee = 1 ∧ Int.gcd (k.q - 1) k.ee = 1 ∧
    k.n = k.p * k.q ∧
    (k.d * k.ee) % ((k.p - 1) * (k.q - 1)) = 1 ∧
    k.dmp1 = k.d % (k.p - 1) ∧ k.dmq1 = k.d % (k.q - 1) ∧
    k.p * k.u % k.q = 1 := by
  have hnotle : ¬ ((P : ℤ) ≤ Q) := by exact_mod_cast not_le.mpr hQP
  simp only [generateStep, if_neg hnotle] at hk
  have hQ2 : 2 ≤ Q := hQ.two_le
  have hphi : 1 < (P - 1) * (Q - 1) := by
    have h1 : 2 ≤ P - 1 := by omega
    have h2 : 1 ≤ Q - 1 := by omega
    calc 1 < 2 * 1 := by norm_num
    _ ≤ (P - 1) * (Q - 1) := Nat.mul_le_mul h1 h2
  have hcastphi : ((P : ℤ) - 1) * ((Q : ℤ) - 1) = (((P - 1) * (Q - 1) : ℕ) : ℤ) := by
    push_cast [Nat.cast_sub (by omega : 1 ≤ P), Nat.cast_sub (by omega : 1 ≤ Q)]
    ring
  split at hk
  case isFalse => exact absurd hk (by simp)
  case isTrue hguard =>
  injection hk with hk
  subst hk
  have hgco : Int.gcd ev (((P - 1) * (Q - 1) : ℕ) : ℤ) = 1 := by
    rw [← hcastphi, Int.gcd_comm]
    exact hguard
  have hPQco : Int.gcd (P : ℤ) (Q : ℤ) = 1 := by
    rw [Int.gcd_natCast_natCast]
    exact (Nat.coprime_primes hP hQ).mpr (by omega)
  refine ⟨by simpa using hP, by simpa using hQ, ?_, hgP, hgQ, rfl, ?_, rfl, rfl, ?_⟩
  · show (Q : ℤ) < (P : ℤ)
    exact_mod_cast hQP
  · show modInverse ev (((P : ℤ) - 1) * ((Q : ℤ) - 1)) * ev % (((P : ℤ) - 1) * ((Q : ℤ) - 1)) = 1
    rw [hcastphi]
    exact modInverse_mul_emod ev ((P - 1) * (Q - 1)) hev hphi hgco
  · show (P : ℤ) * modInverse (P : ℤ) (Q : ℤ) % (Q : ℤ) = 1
    exact (modInverse_spec (P : ℤ) Q (by positivity) (by exact_mod_cast hQ.one_lt) hPQco).2.2

/-! ## Claim theorems -/

set_option maxRecDepth 40000 in
/-- Claim C1 (code_bug evidence). The CRT `decrypt` does *not* always return
`m^d mod n`: for the well-formed toy key `p = 13, q = 11, n = 143, e = 7,
d = 103, u = p⁻¹ mod q = 6` (all key invariants checked in the conjunction)
and the in-range ciphertext `m = 132`, the code returns `154 = n + 11`
while `m^d mod n = 11`. The failing branch is the sign fix-up of the CRT
combination, which produces `t = q` when `xp ≡ xq (mod q)` with `xp > xq`. -/
theorem decrypt_crt_value_bug_at_132 :
    (decrypt false initState 0 132 143 7 103 13 11 6).2 = 154 ∧
    modPow 132 103 143 = 11 ∧ (154 : ℤ) ≠ 11 ∧
    (143 : ℤ) = 13 * 11 ∧ ((103 * 7 : ℤ)) % ((13 - 1) * (11 - 1)) = 1 ∧
    (13 * 6 : ℤ) % 11 = 1 ∧ (0 : ℤ) ≤ 132 ∧ (132 : ℤ) < 143 := by
  decide

/-- Claim C2 (code_bug evidence). The intermediate `t` produced by the CRT
combination step is *not* always normalized into `[0, q)`: at the values
`xp = 11, xq = 0` (which arise in `decrypt` of `m = 132` under the toy key
`p = 13, q = 11, u = 6`, as the last two conjuncts show) the step returns
`t = 11 = q`, outside `[0, q)`, although `(xq - xp) * u ≡ 0 (mod q)`
requires `t = 0`. -/
theorem crtCombine_out_of_range_bug :
    crtCombine 11 0 6 11 = 11 ∧ ¬(crtCombine 11 0 6 11 < 11) ∧
    ((0 - 11 : ℤ) * 6) % 11 = 0 ∧
    modPow (132 % 13) (103 % (13 - 1)) 13 = 11 ∧
    modPow (132 % 11) (103 % (11 - 1)) 11 = 0 := by
  decide

set_option maxRecDepth 40000 in
/-- Claim C3 (code_bug evidence). The encrypt/decrypt round trip fails for
the valid plaintext `m = 11` under the toy key `p = 13, q = 11, n = 143,
e = 7, d = 103, u = 6`: `encrypt 11 = 132` but `decrypt 132 = 154 ≠ 11`.
The boundary plaintexts `m = 0` and `m = n - 1 = 142` do round-trip. -/
theorem decrypt_encrypt_roundtrip_bug_at_11 :
    encrypt 11 7 143 = 132 ∧
    (decrypt false initState 0 (encrypt 11 7 143) 143 7 103 13 11 6).2 = 154 ∧
    (154 : ℤ) ≠ 11 ∧ (0 : ℤ) ≤ 11 ∧ (11 : ℤ) < 143 ∧
    (decrypt false initState 0 (encrypt 0 7 143) 143 7 103 13 11 6).2 = 0 ∧
    (decrypt false initState 0 (encrypt 142 7 143) 143 7 103 13 11 6).2 = 142 := by
  decide

/-- Claim C4 (counterexample). `unblind (blind m)` is *not* the identity:
with `m = 1, n = 143, e = 3`, initial blinding state and fresh random draw
`2`, blinding yields `18` and unblinding that yields `36 ≠ 1 mod n`.
(`blind` multiplies by `(unblinder⁻¹)^e`, `unblind` by `unblinder`; the two
masks only cancel through the intervening power-`d` operation.) -/
theorem unblind_blind_not_identity :
    (blind initState 2 1 143 3).2 = 18 ∧
    unblind (blind initState 2 1 143 3).1 (blind initState 2 1 143 3).2 143 = 36 ∧
    ((36 : ℤ) ≠ 1 % 143) := by
  decide

/-- Claim C4 (amended). The blinding round trip holds through the private
operation: for well-formed key material `n = p*q`, `e*d ≡ 1 mod (p-1)(q-1)`
and an effective unblinder that is nonnegative and coprime to `n` (the
refreshed value actually used by `blind`, whatever the prior state), blind,
raise to `d`, then unblind equals the unblinded private operation, for every
integer `m`, coprime to `n` or not. -/
theorem blind_sign_unblind (p q e d : ℕ) (st : BlindState) (fresh n m : ℤ)
    (hp : p.Prime) (hq : q.Prime) (hne : p ≠ q) (hn : n = (p : ℤ) * q)
    (hed : (e * d) % ((p - 1) * (q - 1)) = 1)
    (hub0 : 0 ≤ effUnblinder st fresh n)
    (hgcd : Int.gcd (effUnblinder st fresh n) n = 1) :
    unblind (blind st fresh m n (e : ℤ)).1 (sign (blind st fresh m n (e : ℤ)).2 (d : ℤ) n) n
      = sign m (d : ℤ) n := by
  subst hn
  have hc : ((p : ℤ) * q) = ((p * q : ℕ) : ℤ) := by push_cast; ring
  rw [hc] at hub0 hgcd ⊢
  have hN1 : 1 < p * q := by
    calc 1 < 2 * 2 := by norm_num
    _ ≤ p * q := Nat.mul_le_mul hp.two_le hq.two_le
  set r := effUnblinder st fresh ((p * q : ℕ) : ℤ) with hr
  have hiz := modInverse_zmod r (p * q) hub0 hN1 hgcd
  simp only [blind, unblind, sign, modPow, Int.toNat_natCast]
  apply (ZMod.intCast_eq_intCast_iff' _ _ _).mp
  rw [Int.cast_mul, Int.cast_pow, intCast_emod_self, Int.cast_pow, intCast_emod_self,
    Int.cast_mul, intCast_emod_self, Int.cast_pow]
  obtain ⟨k, hk⟩ : ∃ k, (p - 1) * (q - 1) * k + 1 = e * d :=
    ⟨(e * d) / ((p - 1) * (q - 1)), by
      conv_rhs => rw [← Nat.div_add_mod (e * d) ((p - 1) * (q - 1))]
      rw [hed]⟩
  have hizu : IsUnit ((modInverse r ((p * q : ℕ) : ℤ) : ℤ) : ZMod (p * q)) :=
    isUnit_of_mul_eq_one _ _ hiz
  have heul := zmod_unit_pow_phi p q hp hq hne _ hizu
  rw [mul_pow, ← pow_mul, ← hk, pow_succ, pow_mul, heul, one_pow, one_mul, mul_assoc,
    hiz, mul_one]

/-- Witness for the amended claim C4, at the toy key and `m = 5`. -/
theorem blind_sign_unblind_witness :
    unblind (blind initState 2 5 143 ((7 : ℕ) : ℤ)).1
        (sign (blind initState 2 5 143 ((7 : ℕ) : ℤ)).2 ((103 : ℕ) : ℤ) 143) 143
      = sign 5 ((103 : ℕ) : ℤ) 143 :=
  blind_sign_unblind 13 11 7 103 initState 2 143 5 (by norm_num) (by norm_num)
    (by norm_num) (by norm_num) (by norm_num) (by decide) (by decide)

set_option maxRecDepth 40000 in
/-- Claim C5 (counterexample). `verify (sign m d n) e n = m` fails without
the precondition `m < n`: at `m = n = 143` under the valid toy key it
returns `0 ≠ 143`. -/
theorem verify_sign_fails_at_modulus :
    verify (sign 143 103 143) 7 143 = 0 ∧ (0 : ℤ) ≠ 143 ∧
    (143 : ℤ) = 13 * 11 ∧ (103 * 7) % ((13 - 1) * (11 - 1) : ℤ) = 1 := by
  decide

/-- Claim C5 (amended). For well-formed key material and every `m` with
`0 ≤ m < n`, verifying a signature returns the signed value:
`verify (sign m d n) e n = m`. -/
theorem verify_sign_roundtrip (p q e d : ℕ) (n m : ℤ)
    (hp : p.Prime) (hq : q.Prime) (hne : p ≠ q)
    (hn : n = (p : ℤ) * q)
    (hed : (d * e) % ((p - 1) * (q - 1)) = 1)
    (hm0 : 0 ≤ m) (hmn : m < n) :
    verify (sign m (d : ℤ) n) (e : ℤ) n = m := by
  subst hn
  have hc : ((p : ℤ) * q) = ((p * q : ℕ) : ℤ) := by push_cast; ring
  rw [hc] at hmn ⊢
  simp only [verify, sign, modPow, modPowInt, Int.toNat_natCast]
  conv_rhs => rw [← Int.emod_eq_of_lt hm0 hmn]
  apply (ZMod.intCast_eq_intCast_iff' _ _ _).mp
  rw [Int.cast_pow, intCast_emod_self, Int.cast_pow, ← pow_mul]
  exact zmod_pow_rsa p q hp hq hne (d * e) hed _

/-- Witness for the amended claim C5, at the toy key and `m = 65`. -/
theorem verify_sign_roundtrip_witness :
    verify (sign 65 ((103 : ℕ) : ℤ) 143) ((7 : ℕ) : ℤ) 143 = 65 :=
  verify_sign_roundtrip 13 11 7 103 143 65 (by norm_num) (by norm_num)
    (by norm_num) (by norm_num) (by norm_num) (by norm_num) (by norm_num)

/-- Claim C6 (counterexample). The in-process finalization does not enforce
`p > q` when the two accepted prime candidates happen to be equal: with
`e = 3` and both candidates `5` (each prime, with `gcd(5 - 1, 3) = 1`, a
draw the inner loops accept), a key object with `p = q = 5` is returned, so
`p > q` fails. -/
theorem generateStep_equal_primes_violates_order :
    generateStep 3 5 5 = some ⟨25, 3, 3, 11, 5, 5, 3, 3, 0⟩ ∧
    Nat.Prime 5 ∧ Int.gcd ((5 : ℤ) - 1) 3 = 1 ∧ ¬((5 : ℤ) < 5) := by
  refine ⟨by decide, by norm_num, by decide, by decide⟩

/-- Claim C6 (amended). Whenever the two accepted prime candidates are
*distinct* primes satisfying the inner-loop exponent-coprimality conditions
and the finalization succeeds, the returned key material satisfies all
structural invariants: `p` and `q` prime, `p > q`, `gcd(ee, p-1) = 1`,
`gcd(ee, q-1) = 1`, `n = p*q`, `(d*ee) mod ((p-1)(q-1)) = 1`,
`dmp1 = d mod (p-1)`, `dmq1 = d mod (q-1)`, and `p*u ≡ 1 (mod q)`. -/
theorem generateStep_invariants_of_ne (ev : ℤ) (p q : ℕ) (k : KeyObj)
    (hp : p.Prime) (hq : q.Prime) (hne : p ≠ q) (hev : 0 ≤ ev)
    (hgp : Int.gcd ((p : ℤ) - 1) ev = 1) (hgq : Int.gcd ((q : ℤ) - 1) ev = 1)
    (hk : generateStep ev p q = some k) :
    k.p.toNat.Prime ∧ k.q.toNat.Prime ∧ k.q < k.p ∧
    Int.gcd (k.p - 1) k.ee = 1 ∧ Int.gcd (k.q - 1) k.ee = 1 ∧
    k.n = k.p * k.q ∧
    (k.d * k.ee) % ((k.p - 1) * (k.q - 1)) = 1 ∧
    k.dmp1 = k.d % (k.p - 1) ∧ k.dmq1 = k.d % (k.q - 1) ∧
    k.p * k.u % k.q = 1 := by
  rcases lt_or_gt_of_ne hne with h | h
  · rw [generateStep_swap ev p q (by exact_mod_cast h)] at hk
    exact generateStep_invariants_sorted ev q p k hq hp h hev hgq hgp hk
  · exact generateStep_invariants_sorted ev p q k hp hq h hev hgp hgq hk

/-- Witness for the amended claim C6, at candidates `5` and `3`, `e = 3`. -/
theorem generateStep_invariants_of_ne_witness :
    generateStep 3 ((5 : ℕ) : ℤ) ((3 : ℕ) : ℤ) = some ⟨15, 3, 3, 3, 5, 3, 3, 1, 2⟩ ∧
    Nat.Prime ((5 : ℤ)).toNat ∧ ((3 : ℤ) < 5) ∧ ((3 : ℤ) * 3) % ((5 - 1) * (3 - 1)) = 1 ∧
    ((5 : ℤ) * 2) % 3 = 1 := by
  have hgen : generateStep 3 ((5 : ℕ) : ℤ) ((3 : ℕ) : ℤ)
      = some ⟨15, 3, 3, 3, 5, 3, 3, 1, 2⟩ := by decide
  have h := generateStep_invariants_of_ne 3 5 3 ⟨15, 3, 3, 3, 5, 3, 3, 1, 2⟩
    (by norm_num) (by norm_num) (by norm_num) (by norm_num) (by decide) (by decide) hgen
  exact ⟨hgen, h.1, h.2.2.1, h.2.2.2.2.2.2.1, h.2.2.2.2.2.2.2.2.2⟩

set_option maxRecDepth 80000 in
/-- Claim C7 (counterexample). The primitive operations do *not* fail fast
on malformed inputs: at `m = 150 ≥ n = 143` (and `m = 275` for `decrypt`)
each primitive returns an ordinary value, identical to the one produced by
the legitimate in-range input `m mod n` — a silently-reduced result, not an
error. -/
theorem primitives_accept_oversized_input :
    encrypt 150 7 143 = encrypt 7 7 143 ∧
    sign 150 103 143 = sign 7 103 143 ∧
    verify 150 7 143 = verify 7 7 143 ∧
    decrypt false initState 0 275 143 7 103 13 11 6
      = decrypt false initState 0 132 143 7 103 13 11 6 ∧
    ¬((150 : ℤ) < 143) := by
  decide

/-- Claim C7 (amended). `encrypt`, `sign`, `verify` and `decrypt` perform no
input validation and never raise: each is a total function that treats an
out-of-range message exactly like its residue `m mod n` (for `decrypt`,
provided the prime factors divide `n`). -/
theorem primitives_total_mod_reduce (st : BlindState) (fresh m n e d p q u : ℤ)
    (hpn : p ∣ n) (hqn : q ∣ n) :
    encrypt m e n = encrypt (m % n) e n ∧
    sign m d n = sign (m % n) d n ∧
    verify m e n = verify (m % n) e n ∧
    decrypt false st fresh m n e d p q u = decrypt false st fresh (m % n) n e d p q u := by
  have hmeq : Int.ModEq n m (m % n) := (Int.emod_emod_of_dvd m dvd_rfl).symm
  have hpow : ∀ k : ℕ, m ^ k % n = (m % n) ^ k % n := fun k => hmeq.pow k
  have h1 : m % n % p = m % p := Int.emod_emod_of_dvd m hpn
  have h2 : m % n % q = m % q := Int.emod_emod_of_dvd m hqn
  refine ⟨hpow _, hpow _, hpow _, ?_⟩
  simp [decrypt, crtCombine, modPow, h1, h2]

set_option maxRecDepth 80000 in
/-- Witness for the amended claim C7, at the toy key and `m = 150`. -/
theorem primitives_total_mod_reduce_witness :
    ((13 : ℤ) ∣ 143) ∧
    encrypt 150 7 143 = encrypt (150 % 143) 7 143 ∧
    decrypt false initState 0 150 143 7 103 13 11 6
      = decrypt false initState 0 (150 % 143) 143 7 103 13 11 6 := by
  have h := primitives_total_mod_reduce initState 0 150 143 7 103 13 11 6
    (by decide) (by decide)
  exact ⟨by decide, h.1, h.2.2.2⟩

/-- Claim C8. The native-delegate key-generation request always carries the
fixed public exponent bytes `[0x01, 0x00, 0x01]`, whose big-endian value is
`65537`, regardless of the caller-supplied exponent string `E`: the request
is the same for any two exponent arguments. -/
theorem nativeKeyGenOpt_fixed_exponent (B : Int) (E E' : String) :
    beBytesToNat (nativeKeyGenOpt B E).publicExponent = 65537 ∧
    nativeKeyGenOpt B E = nativeKeyGenOpt B E' :=
  ⟨rfl, rfl⟩

/-- Claim C9. On the native key-generation path the completion callback is
invoked exactly once per call, carrying either the result key or a failure,
for every combination of platform outcomes of key creation and export —
never both and never a second invocation. -/
theorem nativeGenerate_callback_once (genOk exportOk : Bool) :
    nativeGenerateEvents genOk exportOk = [CbEvent.completedWithKey] ∨
    nativeGenerateEvents genOk exportOk = [CbEvent.completedWithError] := by
  cases genOk <;> cases exportOk <;> decide

/-- Claim C10. With the `rsa_blinding` flag disabled, `decrypt` leaves the
process-wide blinding state unchanged and its result is a deterministic
function of its arguments: it does not depend on the shared state or on the
random oracle. -/
theorem decrypt_no_blinding_frame (st st' : BlindState) (fresh fresh' m n e d p q u : Int) :
    (decrypt false st fresh m n e d p q u).1 = st ∧
    (decrypt false st fresh m n e d p q u).2 = (decrypt false st' fresh' m n e d p q u).2 :=
  ⟨rfl, rfl⟩

end Rsa
